import Mathlib

/-!
Verification of `base/base.go` from the stenographer repository.

The file shallowly embeds the package's pure algorithms and its channel
machinery into Lean:

* `Int64Slice` with `Union` and `Intersect` (two-pointer merges over sorted
  `int64` slices).  `int64` values are modelled as `Int`: the Go code only
  compares them (`<`, `==`), never does arithmetic, so no overflow can occur
  and `Int` is an exact carrier.
* `Packet`, `PacketChan` and `MergePacketChans` (the k-way merge goroutine).
  Concurrency is modelled by a deterministic schedule, documented at the
  definitions below.
-/

namespace Steno

/-! ## Int64Slice (base.go lines 156-207) -/

/-- Go's `type Int64Slice []int64`. -/
abbrev Int64Slice := List Int

/-- The body of Go's
`if ib < len(b) && b[ib] == pos { ib++ }`
step: drop the current element of `b` when it equals `pos`. -/
def skipEq (pos : Int) : List Int → List Int
  | [] => []
  | x :: xs => if x = pos then xs else x :: xs

/-- Go's `func (a Int64Slice) Union(b Int64Slice) (out Int64Slice)`.

The Go loop walks `a` once with a cursor `ib` into `b`:
for each `pos` in `a` it appends every `b[ib] < pos` (the inner `for`,
i.e. `takeWhile`), skips one `b` element equal to `pos`, then appends `pos`;
after the loop it appends the remaining tail `b[ib:]`.  The cursor `ib`
is represented by passing the remaining suffix of `b`. -/
def Int64Slice.Union : Int64Slice → Int64Slice → Int64Slice
  | [], b => b
  | pos :: as, b =>
      b.takeWhile (· < pos) ++
        pos :: Int64Slice.Union as (skipEq pos (b.dropWhile (· < pos)))

/-- Go's `func (a Int64Slice) Intersect(b Int64Slice) (out Int64Slice)`.

For each `pos` in `a` the Go loop advances `ib` past every `b[ib] < pos`
(the inner `for`, i.e. `dropWhile`, emitting nothing) and then, if the
current `b` element equals `pos`, appends `pos` and advances `ib`. -/
def Int64Slice.Intersect : Int64Slice → Int64Slice → Int64Slice
  | [], _ => []
  | pos :: as, b =>
      (match b.dropWhile (· < pos) with
       | x :: _ => if x = pos then [pos] else []
       | [] => []) ++
        Int64Slice.Intersect as (skipEq pos (b.dropWhile (· < pos)))

example : Int64Slice.Union [1, 3, 5] [2, 3, 4] = [1, 2, 3, 4, 5] := by decide
example : Int64Slice.Intersect [1, 3, 5] [2, 3, 4] = [3] := by decide
example : Int64Slice.Union [3, 3] [3, 3, 3] = [3, 3, 3] := by decide
example : Int64Slice.Intersect [3, 3] [3] = [3] := by decide

/-! ## Packets, channels and the k-way merge (base.go lines 37-154)

`MergePacketChans` is a goroutine communicating with its producers over Go
channels.  We embed it under a fixed deterministic schedule, faithful to one
admissible interleaving of the concurrent program:

* each input `PacketChan` is described by the packets its producer sends, in
  order, and the terminal error that producer passes to `Close`;
* `<-c.Receive()` yields those packets in order, then `nil` forever (Go's
  zero value of a closed, drained channel);
* each producer's `Close` becomes visible to `c.Err()` exactly when the
  merge has drained the channel: an `Err()` call made right after a receive
  that returned an actual packet still reports `nil`, and an `Err()` call
  made after a receive that returned `nil` reports the terminal error.

`container/heap` is the Go standard library, not code of this repository;
it is modelled by its documented contract over the repository's
`packetHeap`: `heap.Push` adds an element and `heap.Pop` removes and
returns an element that is minimal for `packetHeap.Less`
(`Timestamp.Before`, i.e. `<` on timestamps).  Which element is returned
among equal timestamps is unspecified by the design; we take the
leftmost. -/

/-- Opaque `error` values; `Option Err` with `none` for Go's `nil`. -/
abbrev Err := Nat

/-- Go's `type Packet struct { Data []byte; gopacket.CaptureInfo }`: payload
bytes plus capture metadata, of which the merge reads only the timestamp
(`time.Time`, modelled as `Nat`; `Timestamp.Before` is `<`). -/
structure Packet where
  data : List Nat
  ts : Nat
  deriving DecidableEq

/-- Go's `type indexedPacket struct { *Packet; i int }` (base.go line 99). -/
structure indexedPacket where
  pkt : Packet
  i : Nat
  deriving DecidableEq

/-- One input `PacketChan` as observed by the merge goroutine: the packets
its producer sends, in order, and the terminal error passed to `Close`. -/
structure ChanIn where
  pkts : List Packet
  err : Option Err
  deriving DecidableEq

/-- Receiving, `<-c.Receive()`, on channel `i` of `cs`: the next packet, or `none`
(Go `nil`) once the channel is closed and drained, with the updated channel
state. -/
def chanRecv (cs : List ChanIn) (i : Nat) : Option Packet × List ChanIn :=
  match cs[i]? with
  | some c =>
    match c.pkts with
    | [] => (none, cs)
    | p :: rest => (some p, cs.set i { c with pkts := rest })
  | none => (none, cs)

/-- The error check `c.Err()` on channel `i`, called right after a receive that returned
`received`: under the modelled schedule the terminal error is visible
exactly when that receive returned `nil`. -/
def chanErr (cs : List ChanIn) (i : Nat) (received : Option Packet) : Option Err :=
  match received with
  | some _ => none
  | none =>
    match cs[i]? with
    | some c => c.err
    | none => none

/-- The pop, `heap.Pop`: remove and return a minimum-timestamp element (leftmost
among equal timestamps), per the `container/heap` contract over
`packetHeap.Less`. -/
def popMin : List indexedPacket → Option (indexedPacket × List indexedPacket)
  | [] => none
  | x :: xs =>
    match popMin xs with
    | none => some (x, [])
    | some (m, rest) =>
      if m.pkt.ts < x.pkt.ts then some (m, x :: rest) else some (x, xs)

/-- The conditional push `if pkt := <-...; pkt != nil { heap.Push(&h, indexedPacket{pkt, i}) }`. -/
def pushIfSome (h : List indexedPacket) (i : Nat) : Option Packet → List indexedPacket
  | some pkt => h ++ [⟨pkt, i⟩]
  | none => h

/-- Total number of packets still unreceived across all channels. -/
def totalRem (cs : List ChanIn) : Nat := (cs.map (fun c => c.pkts.length)).sum

/-- The packets of the output `PacketChan` of `MergePacketChans`, in send
order, together with the error eventually passed to `out.Close`. -/
structure MergeResult where
  out : List Packet
  err : Option Err
  deriving DecidableEq

/-! ## Invariants of the merge -/

/-- Every heap entry's channel index is in range. -/
def IdxOk (cs : List ChanIn) (h : List indexedPacket) : Prop :=
  ∀ e ∈ h, e.i < cs.length

/-- Every heap entry's timestamp bounds from below every unreceived packet
of the channel the entry came from. -/
def HeapLe (cs : List ChanIn) (h : List indexedPacket) : Prop :=
  ∀ e ∈ h, ∀ c, cs[e.i]? = some c → ∀ q ∈ c.pkts, e.pkt.ts ≤ q.ts

/-- Every channel's unreceived stream is non-decreasing in timestamp. -/
def ChansSorted (cs : List ChanIn) : Prop :=
  ∀ c ∈ cs, c.pkts.Pairwise (fun p q => p.ts ≤ q.ts)

/-- Every channel that still has packets to deliver, or a terminal error
not yet observed, is represented by a heap entry. -/
def Rep (cs : List ChanIn) (h : List indexedPacket) : Prop :=
  ∀ i c, cs[i]? = some c → (c.pkts ≠ [] ∨ c.err ≠ none) → ∃ e ∈ h, e.i = i

/-! ## PacketChan state (base.go lines 43-96)

The mutable state of one `PacketChan`: its queued packets, whether
`close(p.c)` has run, and the lock-guarded `err` field.  `Send`, `Receive`
and `Close` are its transitions; blocking (a full or empty queue) suspends
the caller without changing the state, so it does not appear in the state
transitions. -/

structure PacketChanState where
  buf : List Packet
  closed : Bool
  err : Option Err
  deriving DecidableEq

/-- Go's `NewPacketChan(buffer)`: fresh open channel, `err` field zero-valued
(`nil`).  The buffer capacity only governs blocking, not these
transitions. -/
def NewPacketChanState : PacketChanState := ⟨[], false, none⟩

/-- Go's `func (p *PacketChan) Close(err error)`: store `err` under the lock,
then `close(p.c)`. -/
def PCClose (s : PacketChanState) (e : Option Err) : PacketChanState :=
  { s with err := e, closed := true }

/-- Go's `func (p *PacketChan) Err() error`: read the `err` field under the
lock. -/
def PCErr (s : PacketChanState) : Option Err := s.err

/-- Go's `func (p *PacketChan) Send(pkt *Packet)`: `p.c <- pkt`.  A send on a
closed Go channel panics; that is modelled as `none`. -/
def PCSend (s : PacketChanState) (p : Packet) : Option PacketChanState :=
  if s.closed then none else some { s with buf := s.buf ++ [p] }

/-- One receive from `p.Receive()`: dequeue the head packet if any. -/
def PCRecv (s : PacketChanState) : Option Packet × PacketChanState :=
  match s.buf with
  | [] => (none, s)
  | p :: rest => (some p, { s with buf := rest })

/-- The operations a producer/consumer pair can perform on a
`PacketChan`. -/
inductive PCOp where
  | send : Packet → PCOp
  | recv : PCOp
  | close : Option Err → PCOp
  deriving DecidableEq

/-- Effect of one operation on the channel state (a send on a closed
channel panics in Go and changes nothing here). -/
def PCStep (s : PacketChanState) : PCOp → PacketChanState
  | .send p => (PCSend s p).getD s
  | .recv => (PCRecv s).2
  | .close e => PCClose s e

/-- The channel state after a sequence of operations on a fresh channel. -/
def PCRun (ops : List PCOp) : PacketChanState :=
  ops.foldl PCStep NewPacketChanState

/-! ## Facts used below, and the remaining definitions -/

/-- The "sorted in advance" precondition of `Union`/`Intersect`: ascending
(non-decreasing), exactly what Go's `sort.Sort` establishes. -/
abbrev SortedI (l : List Int) : Prop := List.Sorted (· ≤ ·) l

lemma skipEq_sublist (pos : Int) (d : List Int) : (skipEq pos d).Sublist d := by
  cases d with
  | nil => simp [skipEq]
  | cons x xs =>
    by_cases hx : x = pos <;> simp [skipEq, hx, List.sublist_cons_self]

lemma mem_take_lt {b : List Int} {pos x : Int}
    (hx : x ∈ b.takeWhile (fun y => decide (y < pos))) : x < pos := by
  simpa using List.mem_takeWhile_imp hx

lemma mem_drop_ge {b : List Int} (hb : SortedI b) {pos x : Int}
    (hx : x ∈ b.dropWhile (fun y => decide (y < pos))) : pos ≤ x := by
  induction b with
  | nil => simp at hx
  | cons y ys ih =>
    rw [List.dropWhile_cons] at hx
    by_cases hy : y < pos
    · simp only [hy, decide_True] at hx
      exact ih hb.of_cons hx
    · simp only [hy, decide_False] at hx
      push_neg at hy
      rcases List.mem_cons.mp hx with rfl | hx
      · exact hy
      · exact le_trans hy (List.rel_of_sorted_cons hb _ hx)

lemma sortedI_take {b : List Int} (hb : SortedI b) (p : Int → Bool) :
    SortedI (b.takeWhile p) := hb.sublist (List.takeWhile_sublist p)

lemma sortedI_drop {b : List Int} (hb : SortedI b) (p : Int → Bool) :
    SortedI (b.dropWhile p) := hb.sublist (List.dropWhile_sublist p)

lemma sortedI_skipEq {d : List Int} (hd : SortedI d) (pos : Int) :
    SortedI (skipEq pos d) := hd.sublist (skipEq_sublist pos d)

lemma sortedI_append {l m : List Int} (hl : SortedI l) (hm : SortedI m)
    (hc : ∀ x ∈ l, ∀ y ∈ m, x ≤ y) : SortedI (l ++ m) := by
  rw [SortedI, List.Sorted, List.pairwise_append]
  exact ⟨hl, hm, hc⟩

lemma count_zero_of_forall_ne {l : List Int} {v : Int} (h : ∀ x ∈ l, x ≠ v) :
    l.count v = 0 := by
  rw [List.count_eq_zero]
  intro hv
  exact h v hv rfl

lemma count_split (b : List Int) (p : Int → Bool) (v : Int) :
    b.count v = (b.takeWhile p).count v + (b.dropWhile p).count v := by
  conv_lhs => rw [← List.takeWhile_append_dropWhile p b]
  rw [List.count_append]

/-- Occurrence counts in `Union`: the count of every value in the output is
the max of its counts in the two (ascending) inputs. -/
lemma count_union : ∀ a b : Int64Slice, SortedI a → SortedI b → ∀ v : Int,
    (Int64Slice.Union a b).count v = max (a.count v) (b.count v)
  | [], b, _, _, v => by simp [Int64Slice.Union]
  | pos :: as, b, ha, hb, v => by
    have hd_ge : ∀ x ∈ b.dropWhile (fun y => decide (y < pos)), pos ≤ x :=
      fun x hx => mem_drop_ge hb hx
    have ht_lt : ∀ x ∈ b.takeWhile (fun y => decide (y < pos)), x < pos :=
      fun x hx => mem_take_lt hx
    have hsd : SortedI (b.dropWhile (fun y => decide (y < pos))) := sortedI_drop hb _
    have has_ge : ∀ x ∈ as, pos ≤ x := List.rel_of_sorted_cons ha
    have hIH := count_union as (skipEq pos (b.dropWhile (fun y => decide (y < pos))))
      ha.of_cons (sortedI_skipEq hsd pos) v
    have hsplit := count_split b (fun y => decide (y < pos)) v
    simp only [Int64Slice.Union, List.count_append, List.count_cons, beq_iff_eq]
    rw [hIH]
    rcases lt_trichotomy v pos with hv | hv | hv
    · have h1 : as.count v = 0 :=
        count_zero_of_forall_ne fun x hx => ne_of_gt (lt_of_lt_of_le hv (has_ge x hx))
      have h2 : (b.dropWhile (fun y => decide (y < pos))).count v = 0 :=
        count_zero_of_forall_ne fun x hx => ne_of_gt (lt_of_lt_of_le hv (hd_ge x hx))
      have h3 : (skipEq pos (b.dropWhile (fun y => decide (y < pos)))).count v = 0 :=
        Nat.eq_zero_of_le_zero (h2 ▸ (skipEq_sublist _ _).count_le v)
      rw [h1, h3]
      split_ifs with hif <;> omega
    · have h4 : (b.takeWhile (fun y => decide (y < pos))).count v = 0 :=
        count_zero_of_forall_ne fun x hx => by
          have := ht_lt x hx
          omega
      rcases hdd : b.dropWhile (fun y => decide (y < pos)) with _ | ⟨x, xs⟩
      · rw [hdd, List.count_nil] at hsplit
        simp only [hdd, skipEq, List.count_nil]
        rw [h4]
        split_ifs with hif <;> omega
      · have hxge : pos ≤ x := hd_ge x (hdd ▸ List.mem_cons_self x xs)
        rw [hdd] at hsd
        have hxs_ge : ∀ y ∈ xs, x ≤ y := List.rel_of_sorted_cons hsd
        simp only [hdd, skipEq]
        by_cases hx : x = pos
        · rw [if_pos hx]
          rw [hdd] at hsplit
          simp only [List.count_cons, beq_iff_eq] at hsplit
          split_ifs at hsplit ⊢ <;> omega
        · have hposx : pos < x := lt_of_le_of_ne hxge fun h => hx h.symm
          have h5 : (x :: xs).count v = 0 := count_zero_of_forall_ne <| by
            intro y hy
            rcases List.mem_cons.mp hy with rfl | hy
            · omega
            · have := hxs_ge y hy
              omega
          rw [if_neg hx]
          rw [hdd, h5] at hsplit
          rw [h5]
          split_ifs with hif <;> omega
    · have h6 : (b.takeWhile (fun y => decide (y < pos))).count v = 0 :=
        count_zero_of_forall_ne fun x hx => by
          have := ht_lt x hx
          omega
      rcases hdd : b.dropWhile (fun y => decide (y < pos)) with _ | ⟨x, xs⟩
      · rw [hdd, List.count_nil] at hsplit
        simp only [hdd, skipEq, List.count_nil]
        rw [h6]
        split_ifs with hif <;> omega
      · simp only [hdd, skipEq]
        by_cases hx : x = pos
        · rw [if_pos hx]
          rw [hdd] at hsplit
          simp only [List.count_cons, beq_iff_eq] at hsplit
          split_ifs at hsplit ⊢ <;> omega
        · rw [if_neg hx]
          rw [hdd] at hsplit
          split_ifs with hif <;> omega

/-- Occurrence counts in `Intersect`: the count of every value in the output
is the min of its counts in the two (ascending) inputs. -/
lemma count_intersect : ∀ a b : Int64Slice, SortedI a → SortedI b → ∀ v : Int,
    (Int64Slice.Intersect a b).count v = min (a.count v) (b.count v)
  | [], b, _, _, v => by simp [Int64Slice.Intersect]
  | pos :: as, b, ha, hb, v => by
    have hd_ge : ∀ x ∈ b.dropWhile (fun y => decide (y < pos)), pos ≤ x :=
      fun x hx => mem_drop_ge hb hx
    have ht_lt : ∀ x ∈ b.takeWhile (fun y => decide (y < pos)), x < pos :=
      fun x hx => mem_take_lt hx
    have hsd : SortedI (b.dropWhile (fun y => decide (y < pos))) := sortedI_drop hb _
    have has_ge : ∀ x ∈ as, pos ≤ x := List.rel_of_sorted_cons ha
    have hIH := count_intersect as (skipEq pos (b.dropWhile (fun y => decide (y < pos))))
      ha.of_cons (sortedI_skipEq hsd pos) v
    have hsplit := count_split b (fun y => decide (y < pos)) v
    simp only [Int64Slice.Intersect, List.count_append, List.count_cons, beq_iff_eq]
    rw [hIH]
    rcases hdd : b.dropWhile (fun y => decide (y < pos)) with _ | ⟨x, xs⟩
    · rw [hdd, List.count_nil] at hsplit
      simp only [hdd, skipEq, List.count_nil]
      rcases lt_trichotomy v pos with hv | hv | hv
      · have h1 : as.count v = 0 :=
          count_zero_of_forall_ne fun x hx => ne_of_gt (lt_of_lt_of_le hv (has_ge x hx))
        rw [h1]
        split_ifs with hif <;> omega
      · have h4 : (b.takeWhile (fun y => decide (y < pos))).count v = 0 :=
          count_zero_of_forall_ne fun x hx => by
            have := ht_lt x hx
            omega
        split_ifs with hif <;> omega
      · have h6 : (b.takeWhile (fun y => decide (y < pos))).count v = 0 :=
          count_zero_of_forall_ne fun x hx => by
            have := ht_lt x hx
            omega
        split_ifs with hif <;> omega
    · have hxge : pos ≤ x := hd_ge x (hdd ▸ List.mem_cons_self x xs)
      rw [hdd] at hsd
      have hxs_ge : ∀ y ∈ xs, x ≤ y := List.rel_of_sorted_cons hsd
      rw [hdd] at hsplit
      simp only [List.count_cons, beq_iff_eq] at hsplit
      simp only [hdd, skipEq]
      by_cases hx : x = pos
      · rw [if_pos hx, if_pos hx]
        simp only [List.count_cons, List.count_nil, beq_iff_eq]
        rcases lt_trichotomy v pos with hv | hv | hv
        · have h1 : as.count v = 0 :=
            count_zero_of_forall_ne fun y hy => ne_of_gt (lt_of_lt_of_le hv (has_ge y hy))
          split_ifs at hsplit ⊢ <;> omega
        · have h4 : (b.takeWhile (fun y => decide (y < pos))).count v = 0 :=
            count_zero_of_forall_ne fun y hy => by
              have := ht_lt y hy
              omega
          split_ifs at hsplit ⊢ <;> omega
        · have h6 : (b.takeWhile (fun y => decide (y < pos))).count v = 0 :=
            count_zero_of_forall_ne fun y hy => by
              have := ht_lt y hy
              omega
          split_ifs at hsplit ⊢ <;> omega
      · rw [if_neg hx, if_neg hx]
        have hposx : pos < x := lt_of_le_of_ne hxge fun h => hx h.symm
        simp only [List.count_cons, List.count_nil, beq_iff_eq]
        rcases lt_trichotomy v pos with hv | hv | hv
        · have h1 : as.count v = 0 :=
            count_zero_of_forall_ne fun y hy => ne_of_gt (lt_of_lt_of_le hv (has_ge y hy))
          split_ifs at hsplit ⊢ <;> omega
        · have h4 : (b.takeWhile (fun y => decide (y < pos))).count v = 0 :=
            count_zero_of_forall_ne fun y hy => by
              have := ht_lt y hy
              omega
          have h5 : xs.count v = 0 := count_zero_of_forall_ne fun y hy => by
            have := hxs_ge y hy
            omega
          split_ifs at hsplit ⊢ <;> omega
        · have h6 : (b.takeWhile (fun y => decide (y < pos))).count v = 0 :=
            count_zero_of_forall_ne fun y hy => by
              have := ht_lt y hy
              omega
          split_ifs at hsplit ⊢ <;> omega

lemma mem_union : ∀ (a b : Int64Slice) (x : Int),
    x ∈ Int64Slice.Union a b ↔ x ∈ a ∨ x ∈ b
  | [], b, x => by simp [Int64Slice.Union]
  | pos :: as, b, x => by
    have hIH := mem_union as (skipEq pos (b.dropWhile (fun y => decide (y < pos)))) x
    constructor
    · intro hx
      simp only [Int64Slice.Union, List.mem_append, List.mem_cons] at hx
      rcases hx with ht | rfl | hu
      · exact Or.inr ((List.takeWhile_sublist _).subset ht)
      · exact Or.inl (List.mem_cons_self _ _)
      · rcases hIH.mp hu with has | hb'
        · exact Or.inl (List.mem_cons_of_mem _ has)
        · exact Or.inr
            ((List.dropWhile_sublist _).subset ((skipEq_sublist _ _).subset hb'))
    · intro hx
      simp only [Int64Slice.Union, List.mem_append, List.mem_cons]
      rcases hx with hax | hb
      rcases List.mem_cons.mp hax with rfl | has
      · exact Or.inr (Or.inl rfl)
      · exact Or.inr (Or.inr (hIH.mpr (Or.inl has)))
      · rw [← List.takeWhile_append_dropWhile (fun y => decide (y < pos)) b] at hb
        rcases List.mem_append.mp hb with ht | hd
        · exact Or.inl ht
        · rcases hdd : b.dropWhile (fun y => decide (y < pos)) with _ | ⟨y, ys⟩
          · rw [hdd] at hd
            simp at hd
          · rw [hdd] at hd hIH
            by_cases hy : y = pos
            · rcases List.mem_cons.mp hd with rfl | hmem
              · exact Or.inr (Or.inl hy)
              · refine Or.inr (Or.inr (hIH.mpr (Or.inr ?_)))
                simpa [skipEq, hy] using hmem
            · refine Or.inr (Or.inr (hIH.mpr (Or.inr ?_)))
              simpa [skipEq, hy] using hd

lemma mem_intersect_mem_union : ∀ (a b : Int64Slice) (x : Int),
    x ∈ Int64Slice.Intersect a b → x ∈ Int64Slice.Union a b
  | [], _, x => by simp [Int64Slice.Intersect]
  | pos :: as, b, x => by
    intro hx
    simp only [Int64Slice.Intersect, List.mem_append] at hx
    simp only [Int64Slice.Union, List.mem_append, List.mem_cons]
    rcases hx with hemit | hrec
    · rcases hdd : b.dropWhile (fun y => decide (y < pos)) with _ | ⟨y, ys⟩ <;>
        rw [hdd] at hemit
      · simp at hemit
      · by_cases hy : y = pos
        · simp [hy] at hemit
          exact Or.inr (Or.inl hemit)
        · simp [hy] at hemit
    · exact Or.inr (Or.inr (mem_intersect_mem_union as _ x hrec))

lemma mem_intersect_left : ∀ (a b : Int64Slice) (x : Int),
    x ∈ Int64Slice.Intersect a b → x ∈ a
  | [], _, x => by simp [Int64Slice.Intersect]
  | pos :: as, b, x => by
    intro hx
    simp only [Int64Slice.Intersect, List.mem_append] at hx
    rcases hx with hemit | hrec
    · rcases hdd : b.dropWhile (fun y => decide (y < pos)) with _ | ⟨y, ys⟩ <;>
        rw [hdd] at hemit
      · simp at hemit
      · by_cases hy : y = pos
        · simp [hy] at hemit
          exact hemit ▸ List.mem_cons_self _ _
        · simp [hy] at hemit
    · exact List.mem_cons_of_mem _ (mem_intersect_left as _ x hrec)

lemma length_union_add_length_intersect : ∀ a b : Int64Slice,
    (Int64Slice.Union a b).length + (Int64Slice.Intersect a b).length =
      a.length + b.length
  | [], b => by simp [Int64Slice.Union, Int64Slice.Intersect]
  | pos :: as, b => by
    have hIH := length_union_add_length_intersect as
      (skipEq pos (b.dropWhile (fun y => decide (y < pos))))
    have hlb : b.length = (b.takeWhile (fun y => decide (y < pos))).length +
        (b.dropWhile (fun y => decide (y < pos))).length := by
      conv_lhs => rw [← List.takeWhile_append_dropWhile (fun y => decide (y < pos)) b]
      rw [List.length_append]
    simp only [Int64Slice.Union, Int64Slice.Intersect, List.length_append,
      List.length_cons]
    rcases hdd : b.dropWhile (fun y => decide (y < pos)) with _ | ⟨y, ys⟩
    · rw [hdd, List.length_nil] at hlb
      simp only [hdd, skipEq, List.length_nil] at hIH ⊢
      omega
    · rw [hdd, List.length_cons] at hlb
      simp only [hdd, skipEq] at hIH ⊢
      by_cases hy : y = pos
      · simp only [hy, if_true, List.length_cons, List.length_nil] at hIH ⊢
        omega
      · simp only [if_neg hy, List.length_cons, List.length_nil] at hIH ⊢
        omega

lemma sorted_union (a b : Int64Slice) (ha : SortedI a) (hb : SortedI b) :
    SortedI (Int64Slice.Union a b) := by
  induction a generalizing b with
  | nil => simpa [Int64Slice.Union] using hb
  | cons pos as ih =>
    have hd_ge : ∀ x ∈ b.dropWhile (fun y => decide (y < pos)), pos ≤ x :=
      fun x hx => mem_drop_ge hb hx
    have hsd : SortedI (b.dropWhile (fun y => decide (y < pos))) := sortedI_drop hb _
    have has_ge : ∀ x ∈ as, pos ≤ x := List.rel_of_sorted_cons ha
    have hU : SortedI (Int64Slice.Union as
        (skipEq pos (b.dropWhile (fun y => decide (y < pos))))) :=
      ih _ ha.of_cons (sortedI_skipEq hsd pos)
    have hU_ge : ∀ y ∈ Int64Slice.Union as
        (skipEq pos (b.dropWhile (fun y => decide (y < pos)))), pos ≤ y := by
      intro y hy
      rcases (mem_union _ _ _).mp hy with hy | hy
      · exact has_ge y hy
      · exact hd_ge y ((skipEq_sublist _ _).subset hy)
    show SortedI (b.takeWhile (fun y => decide (y < pos)) ++ pos ::
      Int64Slice.Union as (skipEq pos (b.dropWhile (fun y => decide (y < pos)))))
    refine sortedI_append (sortedI_take hb _) ?_ ?_
    · exact List.sorted_cons.mpr ⟨hU_ge, hU⟩
    · intro x hx y hy
      have hxlt : x < pos := mem_take_lt hx
      rcases List.mem_cons.mp hy with rfl | hy
      · exact le_of_lt hxlt
      · exact le_trans (le_of_lt hxlt) (hU_ge y hy)

lemma intersect_cons_of_drop_nil (pos : Int) (as b : Int64Slice)
    (hdd : b.dropWhile (fun y => decide (y < pos)) = []) :
    Int64Slice.Intersect (pos :: as) b = Int64Slice.Intersect as [] := by
  simp only [Int64Slice.Intersect, hdd, skipEq]
  rfl

lemma intersect_cons_of_drop_eq (pos : Int) (as b : Int64Slice) (ys : List Int)
    (hdd : b.dropWhile (fun y => decide (y < pos)) = pos :: ys) :
    Int64Slice.Intersect (pos :: as) b = pos :: Int64Slice.Intersect as ys := by
  simp only [Int64Slice.Intersect, hdd, skipEq]
  simp

lemma intersect_cons_of_drop_ne (pos y : Int) (as b : Int64Slice) (ys : List Int)
    (hdd : b.dropWhile (fun z => decide (z < pos)) = y :: ys) (hy : y ≠ pos) :
    Int64Slice.Intersect (pos :: as) b = Int64Slice.Intersect as (y :: ys) := by
  simp only [Int64Slice.Intersect, hdd, skipEq]
  simp [hy]

lemma sorted_intersect (a b : Int64Slice) (ha : SortedI a) (hb : SortedI b) :
    SortedI (Int64Slice.Intersect a b) := by
  induction a generalizing b with
  | nil => simp [Int64Slice.Intersect, List.sorted_nil]
  | cons pos as ih =>
    have hsd : SortedI (b.dropWhile (fun y => decide (y < pos))) := sortedI_drop hb _
    have has_ge : ∀ x ∈ as, pos ≤ x := List.rel_of_sorted_cons ha
    rcases hdd : b.dropWhile (fun y => decide (y < pos)) with _ | ⟨y, ys⟩
    · rw [intersect_cons_of_drop_nil pos as b hdd]
      exact ih _ ha.of_cons List.sorted_nil
    · rw [hdd] at hsd
      by_cases hy : y = pos
      · subst hy
        rw [intersect_cons_of_drop_eq y as b ys hdd]
        refine List.sorted_cons.mpr ⟨?_, ih _ ha.of_cons hsd.of_cons⟩
        intro z hz
        exact has_ge z (mem_intersect_left _ _ _ hz)
      · rw [intersect_cons_of_drop_ne pos y as b ys hdd hy]
        exact ih _ ha.of_cons hsd

lemma union_self : ∀ a : Int64Slice, Int64Slice.Union a a = a
  | [] => rfl
  | pos :: as => by
    have h1 : (pos :: as).takeWhile (fun y => decide (y < pos)) = [] := by
      simp [List.takeWhile_cons]
    have h2 : (pos :: as).dropWhile (fun y => decide (y < pos)) = pos :: as := by
      simp [List.dropWhile_cons]
    have h3 : skipEq pos (pos :: as) = as := by simp [skipEq]
    simp only [Int64Slice.Union, h1, h2, h3, List.nil_append]
    rw [union_self as]

lemma intersect_self : ∀ a : Int64Slice, Int64Slice.Intersect a a = a
  | [] => rfl
  | pos :: as => by
    have h2 : (pos :: as).dropWhile (fun y => decide (y < pos)) = pos :: as := by
      simp [List.dropWhile_cons]
    have h3 : skipEq pos (pos :: as) = as := by simp [skipEq]
    simp only [Int64Slice.Intersect, h2, h3]
    rw [intersect_self as]
    simp

lemma intersect_nil : ∀ a : Int64Slice, Int64Slice.Intersect a [] = []
  | [] => rfl
  | pos :: as => by
    simp only [Int64Slice.Intersect, List.dropWhile_nil, skipEq]
    rw [intersect_nil as]
    rfl

lemma chanRecv_spec (cs : List ChanIn) (i : Nat) :
    (chanRecv cs i = (none, cs) ∧ ∀ c, cs[i]? = some c → c.pkts = []) ∨
    (∃ c p rest, cs[i]? = some c ∧ c.pkts = p :: rest ∧
      chanRecv cs i = (some p, cs.set i { c with pkts := rest })) := by
  rcases hg : cs[i]? with _ | c
  · refine Or.inl ⟨by simp [chanRecv, hg], ?_⟩
    intro c hc
    cases hc
  · rcases hp : c.pkts with _ | ⟨p, rest⟩
    · refine Or.inl ⟨by simp [chanRecv, hg, hp], ?_⟩
      intro c' hc'
      cases hc'
      exact hp
    · exact Or.inr ⟨c, p, rest, rfl, hp, by simp [chanRecv, hg, hp]⟩

lemma totalRem_cons (c : ChanIn) (cs : List ChanIn) :
    totalRem (c :: cs) = c.pkts.length + totalRem cs := by
  simp [totalRem]

lemma totalRem_set : ∀ (cs : List ChanIn) (i : Nat) (c c' : ChanIn),
    cs[i]? = some c →
    totalRem (cs.set i c') + c.pkts.length = totalRem cs + c'.pkts.length
  | [], i, c, c', h => by simp at h
  | c0 :: cs, 0, c, c', h => by
    simp only [List.getElem?_cons_zero, Option.some.injEq] at h
    subst h
    simp [totalRem_cons, List.set]
    omega
  | c0 :: cs, i + 1, c, c', h => by
    simp only [List.getElem?_cons_succ] at h
    have := totalRem_set cs i c c' h
    simp only [List.set, totalRem_cons]
    omega

lemma chanRecv_length (cs : List ChanIn) (i : Nat) :
    (chanRecv cs i).2.length = cs.length := by
  rcases chanRecv_spec cs i with ⟨he, _⟩ | ⟨c, p, rest, _, _, he⟩ <;>
    rw [he] <;> simp [List.length_set]

lemma popMin_none : ∀ h : List indexedPacket, popMin h = none ↔ h = []
  | [] => by simp [popMin]
  | x :: xs => by
    rw [popMin]
    rcases hp : popMin xs with _ | ⟨m, rest⟩
    · simp
    · by_cases hlt : m.pkt.ts < x.pkt.ts <;> simp [hlt]

lemma popMin_perm : ∀ {h : List indexedPacket} {m : indexedPacket}
    {rest : List indexedPacket},
    popMin h = some (m, rest) → h.Perm (m :: rest)
  | [], m, rest => by simp [popMin]
  | x :: xs, m, rest => by
    rcases hp : popMin xs with _ | ⟨m', rest'⟩
    · simp only [popMin, hp]
      intro he
      cases he
      have hxs : xs = [] := (popMin_none xs).mp hp
      subst hxs
      exact List.Perm.refl _
    · simp only [popMin, hp]
      by_cases hlt : m'.pkt.ts < x.pkt.ts
      · rw [if_pos hlt]
        intro he
        cases he
        have hxs := popMin_perm hp
        exact (hxs.cons x).trans (List.Perm.swap _ _ _)
      · rw [if_neg hlt]
        intro he
        cases he
        exact List.Perm.refl _

lemma popMin_min : ∀ {h : List indexedPacket} {m : indexedPacket}
    {rest : List indexedPacket},
    popMin h = some (m, rest) → ∀ y ∈ h, m.pkt.ts ≤ y.pkt.ts
  | [], m, rest => by simp [popMin]
  | x :: xs, m, rest => by
    rcases hp : popMin xs with _ | ⟨m', rest'⟩
    · simp only [popMin, hp]
      intro he
      cases he
      have hxs : xs = [] := (popMin_none xs).mp hp
      subst hxs
      intro y hy
      rcases List.mem_singleton.mp hy with rfl
      exact le_refl _
    · have hmin' := popMin_min hp
      simp only [popMin, hp]
      by_cases hlt : m'.pkt.ts < x.pkt.ts
      · rw [if_pos hlt]
        intro he
        cases he
        intro y hy
        rcases List.mem_cons.mp hy with rfl | hy
        · exact le_of_lt hlt
        · exact hmin' y hy
      · rw [if_neg hlt]
        intro he
        cases he
        intro y hy
        rcases List.mem_cons.mp hy with rfl | hy
        · exact le_refl _
        · exact le_trans (le_of_not_lt hlt) (hmin' y hy)

lemma popMin_length {h : List indexedPacket} {m : indexedPacket}
    {rest : List indexedPacket} (hp : popMin h = some (m, rest)) :
    rest.length + 1 = h.length := by
  have := (popMin_perm hp).length_eq
  simpa using this.symm

/-- The priming loop of `MergePacketChans` (base.go lines 130-138),
processed from channel index `i` upward: receive one packet from each
channel, pushing it (tagged with the channel index) onto the heap, then
check that channel's `Err()`; a non-nil error closes the output with it and
terminates the goroutine.  Returns the channel states, the heap, and the
error that stopped priming (`none` when the loop completed). -/
def primeFrom (cs : List ChanIn) (i : Nat) (h : List indexedPacket) :
    List ChanIn × List indexedPacket × Option Err :=
  if hi : i < cs.length then
    match hr : chanRecv cs i with
    | (pkt, cs') =>
      match chanErr cs' i pkt with
      | some e => (cs', pushIfSome h i pkt, some e)
      | none => primeFrom cs' (i + 1) (pushIfSome h i pkt)
  else (cs, h, none)
termination_by cs.length - i
decreasing_by
  have hl := chanRecv_length cs i
  rw [hr] at hl
  simp only at hl
  omega

/-- The main merge loop of `MergePacketChans` (base.go lines 139-150):
while the heap is non-empty, pop a minimal indexed packet `(p, i)`, receive
the next packet of channel `i` (pushing it onto the heap when non-nil),
forward `p` to the output, then check channel `i`'s `Err()`, closing the
output with that error — and stopping, dropping any buffered packets — when
it is non-nil.  The `MergeResult` lists the forwarded packets in order,
with the terminal error of the output channel. -/
def mergeLoop (cs : List ChanIn) (h : List indexedPacket) : MergeResult :=
  match hpop : popMin h with
  | none => ⟨[], none⟩
  | some (m, h') =>
    match hr : chanRecv cs m.i with
    | (pkt, cs') =>
      match chanErr cs' m.i pkt with
      | some e => ⟨[m.pkt], some e⟩
      | none =>
        let rest := mergeLoop cs' (pushIfSome h' m.i pkt)
        ⟨m.pkt :: rest.out, rest.err⟩
termination_by h.length + totalRem cs
decreasing_by
  have hlen : h'.length + 1 = h.length := popMin_length hpop
  rcases chanRecv_spec cs m.i with ⟨he, _⟩ | ⟨c, p, restp, hg, hp, he⟩
  · rw [hr] at he
    cases he
    simp only [pushIfSome]
    omega
  · rw [hr] at he
    cases he
    have ht := totalRem_set cs m.i c { c with pkts := restp } hg
    rw [hp] at ht
    simp only [List.length_cons] at ht
    simp only [pushIfSome, List.length_append, List.length_cons,
      List.length_nil] at *
    omega

/-- Go's `func MergePacketChans(in []PacketChan) PacketChan` (base.go lines
119-154): prime the heap with one packet per input channel, then run the
main merge loop.  A non-nil error observed during priming closes the
output before any packet has been sent. -/
def mergePacketChans (cs : List ChanIn) : MergeResult :=
  match primeFrom cs 0 [] with
  | (_, _, some e) => ⟨[], some e⟩
  | (cs', h, none) => mergeLoop cs' h

lemma mem_of_gep {α : Type} {l : List α} {i : Nat} {c : α}
    (h : l[i]? = some c) : c ∈ l := by
  obtain ⟨hlt, rfl⟩ := List.getElem?_eq_some.mp h
  exact List.getElem_mem hlt

lemma gep_of_mem {α : Type} {l : List α} {c : α} (h : c ∈ l) :
    ∃ i : Nat, l[i]? = some c := by
  obtain ⟨i, hi, rfl⟩ := List.mem_iff_getElem.mp h
  exact ⟨i, by simp [List.getElem?_eq_getElem hi]⟩

lemma gep_set_self {α : Type} {l : List α} {i : Nat} {c : α}
    (h : l[i]? = some c) (c' : α) : (l.set i c')[i]? = some c' := by
  have hlt : i < l.length := (List.getElem?_eq_some.mp h).1
  rw [List.getElem?_set_self']
  simp [List.getElem?_eq_getElem hlt]

lemma map_err_set : ∀ (cs : List ChanIn) (i : Nat) (c c' : ChanIn),
    cs[i]? = some c → c'.err = c.err →
    (cs.set i c').map (fun x => x.err) = cs.map (fun x => x.err)
  | [], i, c, c', hg, _ => by simp at hg
  | c0 :: cs, 0, c, c', hg, he => by
    simp only [List.getElem?_cons_zero, Option.some.injEq] at hg
    subst hg
    simp [List.set, he]
  | c0 :: cs, i + 1, c, c', hg, he => by
    simp only [List.getElem?_cons_succ] at hg
    simp [List.set, map_err_set cs i c c' hg he]

lemma totalRem_zero {cs : List ChanIn}
    (h : ∀ c ∈ cs, c.pkts = []) : totalRem cs = 0 := by
  induction cs with
  | nil => rfl
  | cons c cs ih =>
    rw [totalRem_cons, h c (List.mem_cons_self c cs),
      ih fun c' hc' => h c' (List.mem_cons_of_mem c hc')]
    rfl

/-- Membership transfer along `popMin`. -/
lemma popMin_rest_subset {h : List indexedPacket} {m : indexedPacket}
    {rest : List indexedPacket} (hp : popMin h = some (m, rest)) :
    ∀ e ∈ rest, e ∈ h :=
  fun e he => (popMin_perm hp).mem_iff.mpr (List.mem_cons_of_mem m he)

lemma popMin_self_mem {h : List indexedPacket} {m : indexedPacket}
    {rest : List indexedPacket} (hp : popMin h = some (m, rest)) : m ∈ h :=
  (popMin_perm hp).mem_iff.mpr (List.mem_cons_self m rest)

lemma popMin_mem_of_ne {h : List indexedPacket} {m : indexedPacket}
    {rest : List indexedPacket} (hp : popMin h = some (m, rest))
    {e : indexedPacket} (he : e ∈ h) (hne : e ≠ m) : e ∈ rest := by
  rcases List.mem_cons.mp ((popMin_perm hp).mem_iff.mp he) with rfl | h'
  · exact absurd rfl hne
  · exact h'

/-- One iteration of the merge loop, in its non-terminating branch,
preserves the heap/channel invariants; additionally every element of the
new heap has timestamp at least that of the popped packet. -/
lemma step_preserves_core
    {cs : List ChanIn} {h : List indexedPacket} {m : indexedPacket}
    {h' : List indexedPacket} {pkt : Option Packet} {cs' : List ChanIn}
    (hpop : popMin h = some (m, h'))
    (hr : chanRecv cs m.i = (pkt, cs'))
    (hidx : IdxOk cs h) (hle : HeapLe cs h) (hsort : ChansSorted cs) :
    IdxOk cs' (pushIfSome h' m.i pkt) ∧ HeapLe cs' (pushIfSome h' m.i pkt) ∧
    ChansSorted cs' ∧
    (∀ e ∈ pushIfSome h' m.i pkt, m.pkt.ts ≤ e.pkt.ts) ∧
    cs'.length = cs.length ∧
    cs'.map (fun c => c.err) = cs.map (fun c => c.err) := by
  have hmem : m ∈ h := popMin_self_mem hpop
  have hmin := popMin_min hpop
  rcases chanRecv_spec cs m.i with ⟨he, hemp⟩ | ⟨c, p, restp, hg, hpk, he⟩
  · -- receive returned nil: channel untouched
    rw [hr] at he
    cases he
    simp only [pushIfSome]
    refine ⟨fun e hee => hidx e (popMin_rest_subset hpop e hee),
      fun e hee => hle e (popMin_rest_subset hpop e hee), hsort,
      fun e hee => hmin e (popMin_rest_subset hpop e hee), by trivial, by trivial⟩
  · -- receive returned a packet: channel m.i loses its head, heap gains it
    rw [hr] at he
    cases he
    have hcm : c ∈ cs := mem_of_gep hg
    have hcsort : c.pkts.Pairwise (fun p q => p.ts ≤ q.ts) := hsort c hcm
    rw [hpk] at hcsort
    have hhead : ∀ q ∈ restp, p.ts ≤ q.ts :=
      fun q hq => List.rel_of_pairwise_cons hcsort hq
    have hgep : ∀ j, j ≠ m.i → (cs.set m.i { c with pkts := restp })[j]? = cs[j]? :=
      fun j hj => List.getElem?_set_ne (fun hh => hj hh.symm)
    have hgm : (cs.set m.i { c with pkts := restp })[m.i]? =
        some { c with pkts := restp } := gep_set_self hg _
    have hmle : m.pkt.ts ≤ p.ts := hle m hmem c hg p (hpk ▸ List.mem_cons_self p restp)
    simp only [pushIfSome]
    refine ⟨?_, ?_, ?_, ?_, by simp [List.length_set], map_err_set cs m.i c _ hg rfl⟩
    · intro e hee
      rw [List.length_set]
      rcases List.mem_append.mp hee with hee | hee
      · exact hidx e (popMin_rest_subset hpop e hee)
      · rcases List.mem_singleton.mp hee with rfl
        exact hidx m hmem
    · intro e hee c' hgc' q hq
      rcases List.mem_append.mp hee with hee | hee
      · by_cases hei : e.i = m.i
        · rw [hei, hgm] at hgc'
          cases hgc'
          have hq' : q ∈ c.pkts := hpk ▸ List.mem_cons_of_mem p hq
          exact hle e (popMin_rest_subset hpop e hee) c (hei ▸ hg) q hq'
        · rw [hgep e.i hei] at hgc'
          exact hle e (popMin_rest_subset hpop e hee) c' hgc' q hq
      · rcases List.mem_singleton.mp hee with rfl
        simp only at hgc' hq ⊢
        rw [hgm] at hgc'
        cases hgc'
        exact hhead q hq
    · intro c' hc'
      rcases List.mem_or_eq_of_mem_set hc' with hc' | rfl
      · exact hsort c' hc'
      · exact hcsort.of_cons
    · intro e hee
      rcases List.mem_append.mp hee with hee | hee
      · exact hmin e (popMin_rest_subset hpop e hee)
      · rcases List.mem_singleton.mp hee with rfl
        exact hmle

/-- One non-terminating iteration of the merge loop preserves `Rep`. -/
lemma step_preserves_rep
    {cs : List ChanIn} {h : List indexedPacket} {m : indexedPacket}
    {h' : List indexedPacket} {pkt : Option Packet} {cs' : List ChanIn}
    (hpop : popMin h = some (m, h'))
    (hr : chanRecv cs m.i = (pkt, cs'))
    (herr : chanErr cs' m.i pkt = none)
    (hrep : Rep cs h) : Rep cs' (pushIfSome h' m.i pkt) := by
  rcases chanRecv_spec cs m.i with ⟨he, hemp⟩ | ⟨c, p, restp, hg, hpk, he⟩
  · rw [hr] at he
    cases he
    simp only [pushIfSome]
    intro j c' hgc' hne
    by_cases hj : j = m.i
    · subst hj
      exfalso
      have hpkts : c'.pkts = [] := hemp c' hgc'
      have herr' : c'.err = none := by
        simp only [chanErr, hgc'] at herr
        exact herr
      rcases hne with hne | hne
      · exact hne hpkts
      · exact hne herr'
    · obtain ⟨e, hee, hei⟩ := hrep j c' hgc' hne
      exact ⟨e, popMin_mem_of_ne hpop hee (fun hh => hj (hh ▸ hei.symm ▸ rfl)), hei⟩
  · rw [hr] at he
    cases he
    simp only [pushIfSome]
    intro j c' hgc' hne
    by_cases hj : j = m.i
    · subst hj
      exact ⟨⟨p, m.i⟩, List.mem_append.mpr (Or.inr (List.mem_singleton_self _)), rfl⟩
    · rw [List.getElem?_set_ne (fun hh => hj hh.symm)] at hgc'
      obtain ⟨e, hee, hei⟩ := hrep j c' hgc' hne
      refine ⟨e, List.mem_append.mpr (Or.inl ?_), hei⟩
      exact popMin_mem_of_ne hpop hee (fun hh => hj (hh ▸ hei.symm ▸ rfl))

lemma chanRecv_errs (cs : List ChanIn) (i : Nat) :
    (chanRecv cs i).2.map (fun c => c.err) = cs.map (fun c => c.err) := by
  rcases chanRecv_spec cs i with ⟨he, _⟩ | ⟨c, p, restp, hg, hpk, he⟩
  · rw [he]
  · rw [he]
    exact map_err_set cs i c _ hg rfl

lemma errs_none_of_map_eq {cs cs' : List ChanIn}
    (hmap : cs'.map (fun c => c.err) = cs.map (fun c => c.err))
    (h : ∀ c ∈ cs, c.err = none) : ∀ c ∈ cs', c.err = none := by
  intro c hc
  have hmem : c.err ∈ cs'.map (fun c => c.err) := List.mem_map_of_mem _ hc
  rw [hmap] at hmem
  obtain ⟨c2, hc2, he2⟩ := List.mem_map.mp hmem
  rw [← he2]
  exact h c2 hc2

/-! ## Unfolding equations of `mergeLoop` -/

lemma mergeLoop_eq_none {cs : List ChanIn} {h : List indexedPacket}
    (hpop : popMin h = none) : mergeLoop cs h = ⟨[], none⟩ := by
  rw [mergeLoop.eq_def]
  split
  · rfl
  · rename_i mh hpop2
    rw [hpop] at hpop2
    cases hpop2

lemma mergeLoop_eq_err {cs : List ChanIn} {h : List indexedPacket}
    {m : indexedPacket} {h' : List indexedPacket} {pkt : Option Packet}
    {cs' : List ChanIn} {e : Err}
    (hpop : popMin h = some (m, h')) (hr : chanRecv cs m.i = (pkt, cs'))
    (herr : chanErr cs' m.i pkt = some e) :
    mergeLoop cs h = ⟨[m.pkt], some e⟩ := by
  rw [mergeLoop.eq_def]
  split
  · rename_i hpop2
    rw [hpop2] at hpop
    cases hpop
  · rename_i m2 h2 hpop2
    rw [hpop] at hpop2
    cases hpop2
    split
    · rename_i pkt2 cs2 hr2
      rw [hr] at hr2
      cases hr2
      split
      · rename_i e2 herr2
        rw [herr] at herr2
        cases herr2
        rfl
      · rename_i herr2
        rw [herr] at herr2
        cases herr2

lemma mergeLoop_eq_step {cs : List ChanIn} {h : List indexedPacket}
    {m : indexedPacket} {h' : List indexedPacket} {pkt : Option Packet}
    {cs' : List ChanIn}
    (hpop : popMin h = some (m, h')) (hr : chanRecv cs m.i = (pkt, cs'))
    (herr : chanErr cs' m.i pkt = none) :
    mergeLoop cs h = ⟨m.pkt :: (mergeLoop cs' (pushIfSome h' m.i pkt)).out,
      (mergeLoop cs' (pushIfSome h' m.i pkt)).err⟩ := by
  rw [mergeLoop.eq_def]
  split
  · rename_i hpop2
    rw [hpop2] at hpop
    cases hpop
  · rename_i m2 h2 hpop2
    rw [hpop] at hpop2
    cases hpop2
    split
    · rename_i pkt2 cs2 hr2
      rw [hr] at hr2
      cases hr2
      split
      · rename_i e2 herr2
        rw [herr] at herr2
        cases herr2
      · rfl

/-! ## Main lemmas about the merge loop -/

/-- The output of the merge loop is non-decreasing in timestamp, and is
bounded below by any lower bound of the heap. -/
lemma mergeLoop_sorted_aux (cs : List ChanIn) (h : List indexedPacket) :
    IdxOk cs h → HeapLe cs h → ChansSorted cs →
    ((mergeLoop cs h).out.Pairwise (fun p q => p.ts ≤ q.ts) ∧
     ∀ t, (∀ e ∈ h, t ≤ e.pkt.ts) → ∀ q ∈ (mergeLoop cs h).out, t ≤ q.ts) := by
  induction cs, h using mergeLoop.induct with
  | case1 cs h hpop =>
    intro _ _ _
    rw [mergeLoop_eq_none hpop]
    exact ⟨List.Pairwise.nil, fun t _ q hq => absurd hq (List.not_mem_nil q)⟩
  | case2 cs h m h' hpop pkt cs' hr e herr =>
    intro hidx hle hsort
    rw [mergeLoop_eq_err hpop hr herr]
    refine ⟨List.pairwise_singleton _ _, ?_⟩
    intro t ht q hq
    rcases List.mem_singleton.mp hq with rfl
    exact ht m (popMin_self_mem hpop)
  | case3 cs h m h' hpop pkt cs' hr herr ih =>
    intro hidx hle hsort
    obtain ⟨hidx', hle', hsort', hlb', hlen', herrs'⟩ :=
      step_preserves_core hpop hr hidx hle hsort
    obtain ⟨ihp, ihlb⟩ := ih hidx' hle' hsort'
    rw [mergeLoop_eq_step hpop hr herr]
    constructor
    · exact List.Pairwise.cons (fun q hq => ihlb m.pkt.ts hlb' q hq) ihp
    · intro t ht q hq
      rcases List.mem_cons.mp hq with rfl | hq
      · exact ht m (popMin_self_mem hpop)
      · exact le_trans (ht m (popMin_self_mem hpop)) (ihlb m.pkt.ts hlb' q hq)

/-- With error-free inputs the merge loop drains everything: the output
has exactly one record per heap entry and per unreceived packet, and the
output closes with `nil`. -/
lemma mergeLoop_complete (cs : List ChanIn) (h : List indexedPacket) :
    (∀ c ∈ cs, c.err = none) → Rep cs h →
    (mergeLoop cs h).out.length = h.length + totalRem cs ∧
    (mergeLoop cs h).err = none := by
  induction cs, h using mergeLoop.induct with
  | case1 cs h hpop =>
    intro herrs hrep
    rw [mergeLoop_eq_none hpop]
    have hh : h = [] := (popMin_none h).mp hpop
    subst hh
    refine ⟨?_, rfl⟩
    have hz : totalRem cs = 0 := by
      refine totalRem_zero ?_
      intro c hc
      obtain ⟨i, hi⟩ := gep_of_mem hc
      by_contra hne
      obtain ⟨e, he, _⟩ := hrep i c hi (Or.inl hne)
      exact absurd he (List.not_mem_nil e)
    simp [hz]
  | case2 cs h m h' hpop pkt cs' hr e herr =>
    intro herrs hrep
    exfalso
    rcases pkt with _ | p
    · rcases chanRecv_spec cs m.i with ⟨he2, _⟩ | ⟨c, p, restp, hg, hpk, he2⟩
      · rw [hr] at he2
        cases he2
        simp only [chanErr] at herr
        rcases hg : cs[m.i]? with _ | c
        · rw [hg] at herr
          simp at herr
        · rw [hg] at herr
          simp only [herrs c (mem_of_gep hg)] at herr
          cases herr
      · rw [hr] at he2
        cases he2
    · simp [chanErr] at herr
  | case3 cs h m h' hpop pkt cs' hr herr ih =>
    intro herrs hrep
    have hrep' := step_preserves_rep hpop hr herr hrep
    have hmap : cs'.map (fun c => c.err) = cs.map (fun c => c.err) := by
      have := chanRecv_errs cs m.i
      rw [hr] at this
      exact this
    have herrs' : ∀ c ∈ cs', c.err = none := errs_none_of_map_eq hmap herrs
    obtain ⟨ihlen, iherr⟩ := ih herrs' hrep'
    rw [mergeLoop_eq_step hpop hr herr]
    refine ⟨?_, iherr⟩
    simp only [List.length_cons]
    rw [ihlen]
    have hlen : h'.length + 1 = h.length := popMin_length hpop
    rcases chanRecv_spec cs m.i with ⟨he2, _⟩ | ⟨c, p, restp, hg, hpk, he2⟩
    · rw [hr] at he2
      cases he2
      simp only [pushIfSome]
      omega
    · rw [hr] at he2
      cases he2
      have ht := totalRem_set cs m.i c { c with pkts := restp } hg
      rw [hpk] at ht
      simp only [List.length_cons] at ht
      simp only [pushIfSome, List.length_append, List.length_cons, List.length_nil]
      omega

/-- If some input carries a terminal error, the merge loop terminates with
one of the input errors. -/
lemma mergeLoop_error (cs : List ChanIn) (h : List indexedPacket) :
    Rep cs h → (∃ c ∈ cs, c.err ≠ none) →
    ∃ e, (mergeLoop cs h).err = some e ∧ some e ∈ cs.map (fun c => c.err) := by
  induction cs, h using mergeLoop.induct with
  | case1 cs h hpop =>
    intro hrep hex
    exfalso
    obtain ⟨c, hc, hne⟩ := hex
    obtain ⟨i, hi⟩ := gep_of_mem hc
    have hh : h = [] := (popMin_none h).mp hpop
    subst hh
    obtain ⟨e, he, _⟩ := hrep i c hi (Or.inr hne)
    exact absurd he (List.not_mem_nil e)
  | case2 cs h m h' hpop pkt cs' hr e herr =>
    intro hrep hex
    rw [mergeLoop_eq_err hpop hr herr]
    refine ⟨e, rfl, ?_⟩
    rcases pkt with _ | p
    · rcases chanRecv_spec cs m.i with ⟨he2, _⟩ | ⟨c, p, restp, hg, hpk, he2⟩
      · rw [hr] at he2
        cases he2
        simp only [chanErr] at herr
        rcases hg : cs[m.i]? with _ | c
        · rw [hg] at herr
          simp at herr
        · rw [hg] at herr
          have herr' : c.err = some e := herr
          exact herr' ▸ List.mem_map_of_mem _ (mem_of_gep hg)
      · rw [hr] at he2
        cases he2
    · simp [chanErr] at herr
  | case3 cs h m h' hpop pkt cs' hr herr ih =>
    intro hrep hex
    have hrep' := step_preserves_rep hpop hr herr hrep
    have hmap : cs'.map (fun c => c.err) = cs.map (fun c => c.err) := by
      have := chanRecv_errs cs m.i
      rw [hr] at this
      exact this
    have hex' : ∃ c ∈ cs', c.err ≠ none := by
      obtain ⟨c, hc, hne⟩ := hex
      have hmem : c.err ∈ cs.map (fun c => c.err) := List.mem_map_of_mem _ hc
      rw [← hmap] at hmem
      obtain ⟨c2, hc2, he2⟩ := List.mem_map.mp hmem
      exact ⟨c2, hc2, by rw [he2]; exact hne⟩
    obtain ⟨e, hee, hemem⟩ := ih hrep' hex'
    rw [mergeLoop_eq_step hpop hr herr]
    exact ⟨e, hee, hmap ▸ hemem⟩

/-! ## Unfolding equations and specification of the priming loop -/

lemma primeFrom_eq_done {cs : List ChanIn} {i : Nat} {h : List indexedPacket}
    (hge : ¬ i < cs.length) : primeFrom cs i h = (cs, h, none) := by
  rw [primeFrom.eq_def, dif_neg hge]

lemma primeFrom_eq_err {cs : List ChanIn} {i : Nat} {h : List indexedPacket}
    {pkt : Option Packet} {cs' : List ChanIn} {e : Err} (hi : i < cs.length)
    (hr : chanRecv cs i = (pkt, cs')) (herr : chanErr cs' i pkt = some e) :
    primeFrom cs i h = (cs', pushIfSome h i pkt, some e) := by
  rw [primeFrom.eq_def, dif_pos hi]
  split
  · rename_i pkt2 cs2 hr2
    rw [hr] at hr2
    cases hr2
    split
    · rename_i e2 herr2
      rw [herr] at herr2
      cases herr2
      rfl
    · rename_i herr2
      rw [herr] at herr2
      cases herr2

lemma primeFrom_eq_step {cs : List ChanIn} {i : Nat} {h : List indexedPacket}
    {pkt : Option Packet} {cs' : List ChanIn} (hi : i < cs.length)
    (hr : chanRecv cs i = (pkt, cs')) (herr : chanErr cs' i pkt = none) :
    primeFrom cs i h = primeFrom cs' (i + 1) (pushIfSome h i pkt) := by
  rw [primeFrom.eq_def, dif_pos hi]
  split
  · rename_i pkt2 cs2 hr2
    rw [hr] at hr2
    cases hr2
    split
    · rename_i e2 herr2
      rw [herr] at herr2
      cases herr2
    · rfl

/-- Full specification of the priming loop: starting at index `i` with a
heap holding one entry per already-primed channel, it preserves the channel
count and the error fields, moves exactly one packet per remaining
non-empty channel into the heap, keeps heap indices in range and distinct,
preserves heap/channel ordering facts, and either completes having
represented every pending channel in the heap, or stops with the error of
some input channel. -/
lemma primeFrom_spec (cs : List ChanIn) (i : Nat) (h : List indexedPacket) :
    ∀ cs2 h2 r, primeFrom cs i h = (cs2, h2, r) →
    (∀ e ∈ h, e.i < i ∧ e.i < cs.length) →
    (∀ j c, j < i → cs[j]? = some c → (c.pkts ≠ [] ∨ c.err ≠ none) →
      ∃ e ∈ h, e.i = j) →
    (h.map (fun e => e.i)).Nodup →
    (cs2.length = cs.length ∧
     cs2.map (fun c => c.err) = cs.map (fun c => c.err) ∧
     h2.length + totalRem cs2 = h.length + totalRem cs ∧
     (∀ e ∈ h2, e.i < cs.length) ∧
     (h2.map (fun e => e.i)).Nodup ∧
     (ChansSorted cs → HeapLe cs h → ChansSorted cs2 ∧ HeapLe cs2 h2) ∧
     (r = none → Rep cs2 h2) ∧
     (∀ e, r = some e → some e ∈ cs.map (fun c => c.err))) := by
  induction cs, i, h using primeFrom.induct with
  | case1 cs i h hi pkt cs' hr e herr =>
    intro cs2 h2 r hpf hidx hrep hnd
    rw [primeFrom_eq_err hi hr herr] at hpf
    cases hpf
    rcases pkt with _ | p
    · rcases chanRecv_spec cs i with ⟨he2, hemp⟩ | ⟨c, p, restp, hg, hpk, he2⟩
      · rw [hr] at he2
        cases he2
        simp only [pushIfSome]
        refine ⟨by trivial, by trivial, by trivial, fun e' he' => (hidx e' he').2, hnd,
          fun hs hl => ⟨hs, hl⟩, ?_, ?_⟩
        · intro hre
          cases hre
        · intro e' hre
          cases hre
          simp only [chanErr] at herr
          rcases hg : cs[i]? with _ | c
          · rw [hg] at herr
            simp at herr
          · rw [hg] at herr
            have herr2 : c.err = some e := herr
            exact herr2 ▸ List.mem_map_of_mem _ (mem_of_gep hg)
      · rw [hr] at he2
        cases he2
    · simp [chanErr] at herr
  | case2 cs i h hi pkt cs' hr herr ih =>
    intro cs2 h2 r hpf hidx hrep hnd
    rw [primeFrom_eq_step hi hr herr] at hpf
    rcases chanRecv_spec cs i with ⟨he2, hemp⟩ | ⟨c, p, restp, hg, hpk, he2⟩
    · -- receive returned nil: channel i is exhausted, error must be nil
      rw [hr] at he2
      cases he2
      have herrn : ∀ c, cs[i]? = some c → c.err = none := by
        intro c hgc
        simp only [chanErr, hgc] at herr
        exact herr
      have pre1 : ∀ e ∈ pushIfSome h i none, e.i < i + 1 ∧ e.i < cs.length := by
        intro e he
        simp only [pushIfSome] at he
        exact ⟨Nat.lt_succ_of_lt (hidx e he).1, (hidx e he).2⟩
      have pre2 : ∀ j c, j < i + 1 → cs[j]? = some c →
          (c.pkts ≠ [] ∨ c.err ≠ none) → ∃ e ∈ pushIfSome h i none, e.i = j := by
        intro j c hj hgc hne
        simp only [pushIfSome]
        by_cases hji : j = i
        · subst hji
          exfalso
          rcases hne with hne | hne
          · exact hne (hemp c hgc)
          · exact hne (herrn c hgc)
        · exact hrep j c (by omega) hgc hne
      have pre3 : ((pushIfSome h i none).map (fun e => e.i)).Nodup := by
        simpa [pushIfSome] using hnd
      exact ih cs2 h2 r hpf pre1 pre2 pre3
    · -- receive returned a packet from channel i
      rw [hr] at he2
      cases he2
      have hlset : (cs.set i { c with pkts := restp }).length = cs.length :=
        List.length_set cs i _
      have pre1 : ∀ e ∈ pushIfSome h i (some p), e.i < i + 1 ∧
          e.i < (cs.set i { c with pkts := restp }).length := by
        intro e he
        rw [hlset]
        simp only [pushIfSome] at he
        rcases List.mem_append.mp he with he | he
        · exact ⟨Nat.lt_succ_of_lt (hidx e he).1, (hidx e he).2⟩
        · rcases List.mem_singleton.mp he with rfl
          exact ⟨Nat.lt_succ_self i, hi⟩
      have pre2 : ∀ j c', j < i + 1 →
          (cs.set i { c with pkts := restp })[j]? = some c' →
          (c'.pkts ≠ [] ∨ c'.err ≠ none) →
          ∃ e ∈ pushIfSome h i (some p), e.i = j := by
        intro j c' hj hgc hne
        simp only [pushIfSome]
        by_cases hji : j = i
        · refine ⟨⟨p, i⟩, List.mem_append.mpr (Or.inr (List.mem_singleton_self _)), ?_⟩
          exact hji.symm
        · rw [List.getElem?_set_ne (fun hh => hji hh.symm)] at hgc
          obtain ⟨e, he, hei⟩ := hrep j c' (by omega) hgc hne
          exact ⟨e, List.mem_append.mpr (Or.inl he), hei⟩
      have pre3 : ((pushIfSome h i (some p)).map (fun e => e.i)).Nodup := by
        simp only [pushIfSome, List.map_append, List.map_cons, List.map_nil]
        rw [List.nodup_append]
        refine ⟨hnd, List.nodup_singleton _, ?_⟩
        intro x hx hx'
        have hxi : x = i := List.mem_singleton.mp hx'
        obtain ⟨e, he, hei⟩ := List.mem_map.mp hx
        rw [hxi] at hei
        exact absurd (hei ▸ (hidx e he).1) (lt_irrefl i)
      obtain ⟨hlen, herrs, htot, hidx2, hnd2, hsorted2, hrep2, herrm2⟩ :=
        ih cs2 h2 r hpf pre1 pre2 pre3
      have herrset : (cs.set i { c with pkts := restp }).map (fun x => x.err) =
          cs.map (fun x => x.err) := map_err_set cs i c _ hg rfl
      have htset := totalRem_set cs i c { c with pkts := restp } hg
      rw [hpk] at htset
      simp only [List.length_cons] at htset
      refine ⟨by rw [hlen, hlset], by rw [herrs, herrset], ?_, ?_, hnd2, ?_, hrep2, ?_⟩
      · rw [htot]
        simp only [pushIfSome, List.length_append, List.length_cons, List.length_nil]
        omega
      · intro e' he'
        have := hidx2 e' he'
        rwa [hlset] at this
      · intro hs hl
        refine hsorted2 ?_ ?_
        · intro c' hc'
          rcases List.mem_or_eq_of_mem_set hc' with hc' | rfl
          · exact hs c' hc'
          · have := hs c (mem_of_gep hg)
            rw [hpk] at this
            exact this.of_cons
        · intro e' he' c' hgc' q hq
          simp only [pushIfSome] at he'
          rcases List.mem_append.mp he' with he' | he'
          · have hei : e'.i ≠ i := fun hh => absurd (hh ▸ (hidx e' he').1) (lt_irrefl i)
            rw [List.getElem?_set_ne (fun hh => hei hh.symm)] at hgc'
            exact hl e' he' c' hgc' q hq
          · rcases List.mem_singleton.mp he' with rfl
            simp only at hgc' hq ⊢
            rw [gep_set_self hg] at hgc'
            cases hgc'
            have hcs := hs c (mem_of_gep hg)
            rw [hpk] at hcs
            exact List.rel_of_pairwise_cons hcs hq
      · intro e' hre
        rw [← herrset]
        exact herrm2 e' hre
  | case3 cs i h hge =>
    intro cs2 h2 r hpf hidx hrep hnd
    rw [primeFrom_eq_done hge] at hpf
    cases hpf
    refine ⟨rfl, rfl, rfl, fun e he => (hidx e he).2, hnd,
      fun hs hl => ⟨hs, hl⟩, ?_, ?_⟩
    · intro _
      intro j c hgc hne
      have hj : j < cs.length := (List.getElem?_eq_some.mp hgc).1
      exact hrep j c (by omega) hgc hne
    · intro e' hre
      cases hre

/-! ## Heap cardinality facts (for the heap-size invariant) -/

lemma length_le_of_nodup_bound {l : List Nat} {n : Nat} (hn : l.Nodup)
    (hb : ∀ x ∈ l, x < n) : l.length ≤ n := by
  have hcard : l.toFinset.card = l.length := List.toFinset_card_of_nodup hn
  have hsub : l.toFinset ⊆ Finset.range n := by
    intro x hx
    rw [List.mem_toFinset] at hx
    rw [Finset.mem_range]
    exact hb x hx
  have hle := Finset.card_le_card hsub
  rw [hcard, Finset.card_range] at hle
  exact hle

/-- Distinct in-range channel indices bound the heap size by the number of
input channels. -/
lemma heap_card_bound {cs : List ChanIn} {h : List indexedPacket}
    (hnd : (h.map (fun e => e.i)).Nodup) (hidx : IdxOk cs h) :
    h.length ≤ cs.length := by
  have hlen : (h.map (fun e => e.i)).length = h.length := List.length_map _ _
  rw [← hlen]
  refine length_le_of_nodup_bound hnd ?_
  intro x hx
  obtain ⟨e, he, hei⟩ := List.mem_map.mp hx
  exact hei ▸ hidx e he

/-- One iteration of the main loop keeps the heap indices distinct and in
range, hence the heap size at most the number of channels. -/
lemma step_heap_nodup
    {cs : List ChanIn} {h : List indexedPacket} {m : indexedPacket}
    {h' : List indexedPacket} {pkt : Option Packet} {cs' : List ChanIn}
    (hpop : popMin h = some (m, h'))
    (hr : chanRecv cs m.i = (pkt, cs'))
    (hnd : (h.map (fun e => e.i)).Nodup) (hidx : IdxOk cs h) :
    ((pushIfSome h' m.i pkt).map (fun e => e.i)).Nodup ∧
    IdxOk cs' (pushIfSome h' m.i pkt) ∧
    (pushIfSome h' m.i pkt).length ≤ cs'.length := by
  have hlen' : cs'.length = cs.length := by
    have hh := chanRecv_length cs m.i
    rw [hr] at hh
    exact hh
  have hperm : (h.map (fun e => e.i)).Perm ((m :: h').map (fun e => e.i)) :=
    (popMin_perm hpop).map _
  have hnd2 := hperm.nodup_iff.mp hnd
  simp only [List.map_cons, List.nodup_cons] at hnd2
  obtain ⟨hmi, hnd'⟩ := hnd2
  have hidxp : IdxOk cs' (pushIfSome h' m.i pkt) := by
    intro e he
    rw [hlen']
    rcases pkt with _ | p
    · exact hidx e (popMin_rest_subset hpop e (by simpa [pushIfSome] using he))
    · simp only [pushIfSome] at he
      rcases List.mem_append.mp he with he | he
      · exact hidx e (popMin_rest_subset hpop e he)
      · rcases List.mem_singleton.mp he with rfl
        exact hidx m (popMin_self_mem hpop)
  have hndp : ((pushIfSome h' m.i pkt).map (fun e => e.i)).Nodup := by
    rcases pkt with _ | p
    · simpa [pushIfSome] using hnd'
    · simp only [pushIfSome, List.map_append, List.map_cons, List.map_nil]
      rw [List.nodup_append]
      refine ⟨hnd', List.nodup_singleton _, ?_⟩
      intro x hx hx'
      have hxi : x = m.i := List.mem_singleton.mp hx'
      rw [hxi] at hx
      exact hmi hx
  exact ⟨hndp, hidxp, heap_card_bound hndp hidxp⟩

lemma PCStep_err_of_not_close (s : PacketChanState) (op : PCOp)
    (hop : ∀ e, op ≠ PCOp.close e) : (PCStep s op).err = s.err := by
  cases op with
  | send p =>
    simp only [PCStep, PCSend]
    by_cases hc : s.closed <;> simp [hc]
  | recv =>
    simp only [PCStep, PCRecv]
    rcases s.buf with _ | ⟨p, rest⟩ <;> simp
  | close e => exact absurd rfl (hop e)

lemma PCRun_err_none : ∀ (ops : List PCOp) (s : PacketChanState),
    (∀ e, PCOp.close e ∉ ops) → s.err = none →
    (ops.foldl PCStep s).err = none
  | [], s, _, hs => hs
  | op :: ops, s, hnc, hs => by
    rw [List.foldl_cons]
    refine PCRun_err_none ops (PCStep s op) ?_ ?_
    · intro e he
      exact hnc e (List.mem_cons_of_mem _ he)
    · rw [PCStep_err_of_not_close s op ?_, hs]
      intro e hop
      exact hnc e (hop ▸ List.mem_cons_self _ _)

/-! ## Claims about the sorted-set algebra -/

/-- Claim C3. For every pair of ascending `Int64Slice` sequences `a` and `b`,
`Union(a, b)` returns an ascending sequence that contains every element of
`a` and every element of `b`; a `b`-element equal to the currently emitted
`a`-element is collapsed into a single output occurrence, while duplicates
within a single input are preserved — captured exactly by the occurrence
count of each value being the max of its counts in the two inputs. -/
theorem union_ascending_complete (a b : Int64Slice)
    (ha : SortedI a) (hb : SortedI b) :
    SortedI (Int64Slice.Union a b) ∧
    (∀ x ∈ a, x ∈ Int64Slice.Union a b) ∧
    (∀ x ∈ b, x ∈ Int64Slice.Union a b) ∧
    (∀ v : Int, (Int64Slice.Union a b).count v = max (a.count v) (b.count v)) :=
  ⟨sorted_union a b ha hb,
   fun x hx => (mem_union a b x).mpr (Or.inl hx),
   fun x hx => (mem_union a b x).mpr (Or.inr hx),
   count_union a b ha hb⟩

theorem union_ascending_complete_witness :
    SortedI (Int64Slice.Union [1, 3, 5] [2, 3, 4]) ∧
    (3 : Int) ∈ Int64Slice.Union [1, 3, 5] [2, 3, 4] ∧
    (Int64Slice.Union [1, 3, 5] [2, 3, 4]).count 3 =
      max (([1, 3, 5] : Int64Slice).count 3) (([2, 3, 4] : Int64Slice).count 3) := by
  have h := union_ascending_complete [1, 3, 5] [2, 3, 4] (by decide) (by decide)
  exact ⟨h.1, h.2.1 3 (by decide), h.2.2.2 3⟩

/-- Claim C4. For every pair of ascending `Int64Slice` sequences `a` and `b`,
`|Union(a,b)| + |Intersect(a,b)| = |a| + |b|`, and every element of
`Intersect(a,b)` also appears in `Union(a,b)`. -/
theorem union_intersect_partition (a b : Int64Slice)
    (ha : SortedI a) (hb : SortedI b) :
    (Int64Slice.Union a b).length + (Int64Slice.Intersect a b).length =
      a.length + b.length ∧
    ∀ x ∈ Int64Slice.Intersect a b, x ∈ Int64Slice.Union a b :=
  ⟨length_union_add_length_intersect a b,
   fun x hx => mem_intersect_mem_union a b x hx⟩

theorem union_intersect_partition_witness :
    (Int64Slice.Union [1, 3, 5] [2, 3, 4]).length +
        (Int64Slice.Intersect [1, 3, 5] [2, 3, 4]).length = 3 + 3 ∧
    (3 : Int) ∈ Int64Slice.Union [1, 3, 5] [2, 3, 4] := by
  have h := union_intersect_partition [1, 3, 5] [2, 3, 4] (by decide) (by decide)
  exact ⟨h.1, h.2 3 (by decide)⟩

/-- Claim C5. `Union([1,3,5], [2,3,4]) = [1,2,3,4,5]` and
`Intersect([1,3,5], [2,3,4]) = [3]`. -/
theorem union_intersect_concrete_scenario :
    Int64Slice.Union [1, 3, 5] [2, 3, 4] = [1, 2, 3, 4, 5] ∧
    Int64Slice.Intersect [1, 3, 5] [2, 3, 4] = [3] := by
  exact ⟨by decide, by decide⟩

/-- Claim C6. For every ascending `Int64Slice` `a`, `Union(a, a) = a` and
`Intersect(a, a) = a`. -/
theorem union_intersect_self_identity (a : Int64Slice) (ha : SortedI a) :
    Int64Slice.Union a a = a ∧ Int64Slice.Intersect a a = a :=
  ⟨union_self a, intersect_self a⟩

theorem union_intersect_self_identity_witness :
    Int64Slice.Union [2, 2, 7] [2, 2, 7] = [2, 2, 7] ∧
    Int64Slice.Intersect [2, 2, 7] [2, 2, 7] = [2, 2, 7] :=
  union_intersect_self_identity [2, 2, 7] (by decide)

/-- Claim C7. For every pair of ascending `Int64Slice` sequences `a` and `b`,
`Union(a,b)` has the same content as `Union(b,a)` (a permutation, i.e.
equal as multisets-with-collapse), and `Intersect(a,b) = Intersect(b,a)`. -/
theorem union_intersect_commutative (a b : Int64Slice)
    (ha : SortedI a) (hb : SortedI b) :
    (Int64Slice.Union a b).Perm (Int64Slice.Union b a) ∧
    Int64Slice.Intersect a b = Int64Slice.Intersect b a := by
  have hperm : (Int64Slice.Union a b).Perm (Int64Slice.Union b a) := by
    rw [List.perm_iff_count]
    intro v
    rw [count_union a b ha hb v, count_union b a hb ha v, Nat.max_comm]
  have hpermI : (Int64Slice.Intersect a b).Perm (Int64Slice.Intersect b a) := by
    rw [List.perm_iff_count]
    intro v
    rw [count_intersect a b ha hb v, count_intersect b a hb ha v, Nat.min_comm]
  exact ⟨hperm, List.eq_of_perm_of_sorted hpermI
    (sorted_intersect a b ha hb) (sorted_intersect b a hb ha)⟩

theorem union_intersect_commutative_witness :
    (Int64Slice.Union [1, 3, 5] [2, 3, 4]).Perm (Int64Slice.Union [2, 3, 4] [1, 3, 5]) ∧
    Int64Slice.Intersect [1, 3, 5] [2, 3, 4] = Int64Slice.Intersect [2, 3, 4] [1, 3, 5] :=
  union_intersect_commutative [1, 3, 5] [2, 3, 4] (by decide) (by decide)

/-- Claim C10. For every pair of ascending `Int64Slice` sequences and every
value `v`, the count of `v` in `Union(a,b)` is the max of its counts in `a`
and `b`, and its count in `Intersect(a,b)` is the min of those counts; in
particular `Union([], b) = b` and intersecting with an empty sequence (on
either side) yields the empty sequence. -/
theorem union_intersect_multiset_counts (a b : Int64Slice)
    (ha : SortedI a) (hb : SortedI b) :
    (∀ v : Int, (Int64Slice.Union a b).count v = max (a.count v) (b.count v) ∧
        (Int64Slice.Intersect a b).count v = min (a.count v) (b.count v)) ∧
    Int64Slice.Union [] b = b ∧
    Int64Slice.Intersect a [] = [] ∧
    Int64Slice.Intersect [] b = [] :=
  ⟨fun v => ⟨count_union a b ha hb v, count_intersect a b ha hb v⟩,
   rfl, intersect_nil a, rfl⟩

theorem union_intersect_multiset_counts_witness :
    ((Int64Slice.Union [1, 1, 4] [1, 2]).count 1 =
        max (([1, 1, 4] : Int64Slice).count 1) (([1, 2] : Int64Slice).count 1) ∧
      (Int64Slice.Intersect [1, 1, 4] [1, 2]).count 1 =
        min (([1, 1, 4] : Int64Slice).count 1) (([1, 2] : Int64Slice).count 1)) ∧
    Int64Slice.Intersect [1, 1, 4] [] = [] := by
  have h := union_intersect_multiset_counts [1, 1, 4] [1, 2] (by decide) (by decide)
  exact ⟨h.1 1, h.2.2.1⟩

/-! ## Claims about the merge and the channel -/

/-- Claim C1. For every number `N ≥ 0` of input channels whose streams are
individually non-decreasing in timestamp and which all close with a `nil`
error, `MergePacketChans` delivers a stream that is non-decreasing in
timestamp, whose length is the sum of the input stream lengths, and closes
the output with a `nil` terminal error. -/
theorem merge_sorted_complete (cs : List ChanIn)
    (hsorted : ∀ c ∈ cs, c.pkts.Chain' (fun p q => p.ts ≤ q.ts))
    (herrs : ∀ c ∈ cs, c.err = none) :
    (mergePacketChans cs).out.Chain' (fun p q => p.ts ≤ q.ts) ∧
    (mergePacketChans cs).out.length = (cs.map (fun c => c.pkts.length)).sum ∧
    (mergePacketChans cs).err = none := by
  haveI : IsTrans Packet (fun p q => p.ts ≤ q.ts) :=
    ⟨fun a b c hab hbc => le_trans hab hbc⟩
  have hsortP : ChansSorted cs := fun c hc =>
    List.chain'_iff_pairwise.mp (hsorted c hc)
  rcases hpf : primeFrom cs 0 [] with ⟨cs', h', r⟩
  obtain ⟨hlen, herrmap, htot, hidx, hnd, hsortedtr, hrep, herrm⟩ :=
    primeFrom_spec cs 0 [] cs' h' r hpf (by simp)
      (by
        intro j c hj hg hne
        exact absurd hj (Nat.not_lt_zero j))
      (by simp)
  rcases r with _ | e
  · obtain ⟨hcs', hhl'⟩ := hsortedtr hsortP (by
      intro e he c hg q hq
      simp at he)
    have hrepn := hrep rfl
    have herrs' : ∀ c ∈ cs', c.err = none := errs_none_of_map_eq herrmap herrs
    have hidx' : IdxOk cs' h' := fun e he => hlen ▸ hidx e he
    obtain ⟨hpair, _⟩ := mergeLoop_sorted_aux cs' h' hidx' hhl' hcs'
    obtain ⟨hlen2, herr2⟩ := mergeLoop_complete cs' h' herrs' hrepn
    simp only [mergePacketChans, hpf]
    refine ⟨hpair.chain', ?_, herr2⟩
    rw [hlen2]
    simpa using htot
  · exfalso
    have hmem := herrm e rfl
    obtain ⟨c, hc, he⟩ := List.mem_map.mp hmem
    rw [herrs c hc] at he
    cases he

theorem merge_sorted_complete_witness :
    (mergePacketChans [⟨[⟨[], 1⟩, ⟨[], 3⟩], none⟩, ⟨[⟨[], 2⟩], none⟩]).out.Chain'
      (fun p q => p.ts ≤ q.ts) ∧
    (mergePacketChans [⟨[⟨[], 1⟩, ⟨[], 3⟩], none⟩, ⟨[⟨[], 2⟩], none⟩]).out.length =
      (([⟨[⟨[], 1⟩, ⟨[], 3⟩], none⟩, ⟨[⟨[], 2⟩], none⟩] : List ChanIn).map
        (fun c => c.pkts.length)).sum ∧
    (mergePacketChans [⟨[⟨[], 1⟩, ⟨[], 3⟩], none⟩, ⟨[⟨[], 2⟩], none⟩]).err = none :=
  merge_sorted_complete _ (by simp [List.chain'_cons]) (by decide)

/-- Claim C2. If some input channel closes with a non-nil error, the merged
output channel is closed with exactly the (first) error the merge
observes — a non-nil error of one of the inputs, surfaced verbatim.  In
the deterministic schedule modelled here the records forwarded before the
error was observed are exactly `(mergePacketChans cs).out`; the recursion
stops at the error, so no further record follows it and none is
retracted. -/
theorem merge_error_propagation (cs : List ChanIn)
    (hex : ∃ c ∈ cs, c.err ≠ none) :
    ∃ e, (mergePacketChans cs).err = some e ∧
      some e ∈ cs.map (fun c => c.err) := by
  rcases hpf : primeFrom cs 0 [] with ⟨cs', h', r⟩
  obtain ⟨hlen, herrmap, htot, hidx, hnd, hsortedtr, hrep, herrm⟩ :=
    primeFrom_spec cs 0 [] cs' h' r hpf (by simp)
      (by
        intro j c hj hg hne
        exact absurd hj (Nat.not_lt_zero j))
      (by simp)
  rcases r with _ | e
  · have hrepn := hrep rfl
    have hex' : ∃ c ∈ cs', c.err ≠ none := by
      obtain ⟨c, hc, hne⟩ := hex
      have hmem : c.err ∈ cs.map (fun c => c.err) := List.mem_map_of_mem _ hc
      rw [← herrmap] at hmem
      obtain ⟨c2, hc2, he2⟩ := List.mem_map.mp hmem
      exact ⟨c2, hc2, by rw [he2]; exact hne⟩
    obtain ⟨e, hee, hemem⟩ := mergeLoop_error cs' h' hrepn hex'
    simp only [mergePacketChans, hpf]
    exact ⟨e, hee, herrmap ▸ hemem⟩
  · simp only [mergePacketChans, hpf]
    exact ⟨e, rfl, herrm e rfl⟩

theorem merge_error_propagation_witness :
    ∃ e, (mergePacketChans [⟨[⟨[], 1⟩], some 7⟩]).err = some e ∧
      some e ∈ ([⟨[⟨[], 1⟩], some 7⟩] : List ChanIn).map (fun c => c.err) :=
  merge_error_propagation _ ⟨⟨[⟨[], 1⟩], some 7⟩, by decide, by decide⟩

/-- Claim C8. The merge heap invariant: after priming, the heap holds at most
one record per input channel (its channel indices are distinct and in
range), hence at most `N` records; and one iteration of the main loop
(pop a minimum, receive from that channel, push the received record)
preserves distinctness, in-range indices, and the size bound. -/
theorem merge_heap_bounded :
    (∀ (cs cs' : List ChanIn) (h' : List indexedPacket) (r : Option Err),
        primeFrom cs 0 [] = (cs', h', r) →
        (h'.map (fun e => e.i)).Nodup ∧ (∀ e ∈ h', e.i < cs.length) ∧
        h'.length ≤ cs.length) ∧
    (∀ (cs cs' : List ChanIn) (h h' : List indexedPacket) (m : indexedPacket)
        (pkt : Option Packet),
        (h.map (fun e => e.i)).Nodup → IdxOk cs h →
        popMin h = some (m, h') → chanRecv cs m.i = (pkt, cs') →
        ((pushIfSome h' m.i pkt).map (fun e => e.i)).Nodup ∧
        IdxOk cs' (pushIfSome h' m.i pkt) ∧
        (pushIfSome h' m.i pkt).length ≤ cs'.length) := by
  constructor
  · intro cs cs' h' r hpf
    obtain ⟨hlen, _, _, hidx, hnd, _, _, _⟩ :=
      primeFrom_spec cs 0 [] cs' h' r hpf (by simp)
        (by
          intro j c hj hg hne
          exact absurd hj (Nat.not_lt_zero j))
        (by simp)
    have hidx' : IdxOk cs' h' := fun e he => hlen ▸ hidx e he
    have hb := heap_card_bound hnd hidx'
    rw [hlen] at hb
    exact ⟨hnd, hidx, hb⟩
  · intro cs cs' h h' m pkt hnd hidx hpop hr
    exact step_heap_nodup hpop hr hnd hidx

theorem merge_heap_bounded_witness :
    (([⟨⟨[], 5⟩, 0⟩] : List indexedPacket).map (fun e => e.i)).Nodup ∧
    (∀ e ∈ ([⟨⟨[], 5⟩, 0⟩] : List indexedPacket),
      e.i < ([⟨[⟨[], 5⟩], none⟩] : List ChanIn).length) ∧
    ([⟨⟨[], 5⟩, 0⟩] : List indexedPacket).length ≤
      ([⟨[⟨[], 5⟩], none⟩] : List ChanIn).length := by
  have hr0 : chanRecv [(⟨[⟨[], 5⟩], none⟩ : ChanIn)] 0 =
      (some ⟨[], 5⟩, [(⟨[], none⟩ : ChanIn)]) := rfl
  have herr0 : chanErr [(⟨[], none⟩ : ChanIn)] 0 (some ⟨[], 5⟩) = none := rfl
  have hpf : primeFrom [⟨[⟨[], 5⟩], none⟩] 0 [] =
      ([⟨[], none⟩], [⟨⟨[], 5⟩, 0⟩], none) := by
    rw [primeFrom_eq_step (by decide) hr0 herr0, primeFrom_eq_done (by decide)]
    rfl
  exact merge_heap_bounded.1 [⟨[⟨[], 5⟩], none⟩] [⟨[], none⟩] [⟨⟨[], 5⟩, 0⟩] none hpf

/-- Claim C9. For every `PacketChan` state and every error value (nil or
non-nil), after `Close(err)` the channel's `Err()` returns exactly `err`
and the channel is closed to further sends (a send would panic); and on
any run from a fresh channel in which `Close` has never been called,
`Err()` returns `nil`. -/
theorem packetChan_close_sets_error :
    (∀ (s : PacketChanState) (e : Option Err) (p : Packet),
        PCErr (PCClose s e) = e ∧ (PCClose s e).closed = true ∧
        PCSend (PCClose s e) p = none) ∧
    (∀ ops : List PCOp, (∀ e, PCOp.close e ∉ ops) → PCErr (PCRun ops) = none) := by
  constructor
  · intro s e p
    refine ⟨rfl, rfl, ?_⟩
    simp [PCSend, PCClose]
  · intro ops hnc
    exact PCRun_err_none ops NewPacketChanState hnc rfl

theorem packetChan_close_sets_error_witness :
    PCErr (PCClose ⟨[], false, none⟩ (some 3)) = some 3 ∧
    (PCClose ⟨[], false, none⟩ (some 3)).closed = true ∧
    PCSend (PCClose ⟨[], false, none⟩ (some 3)) ⟨[], 0⟩ = none ∧
    PCErr (PCRun [PCOp.send ⟨[], 0⟩, PCOp.recv]) = none := by
  have h := packetChan_close_sets_error
  refine ⟨(h.1 ⟨[], false, none⟩ (some 3) ⟨[], 0⟩).1,
    (h.1 ⟨[], false, none⟩ (some 3) ⟨[], 0⟩).2.1,
    (h.1 ⟨[], false, none⟩ (some 3) ⟨[], 0⟩).2.2,
    h.2 [PCOp.send ⟨[], 0⟩, PCOp.recv] ?_⟩
  intro e he
  simp at he

end Steno
